import Mathlib

/-!
Verification of the job-queue/worker/broadcast core of mcpzimage.

The Go source keeps tasks in a single SQLite table (struct Task in the
main package), claims the oldest pending task inside a transaction with a
row-level update lock (taskWorker), fans out events through a broadcast
channel drained by one dispatcher goroutine (handleMessages), and handles
per-connection requests in serveWs.  Here the table is a list of Task
records, the transaction is one atomic step, and the dispatcher and the
session loop are explicit step functions.
-/

namespace MCPZImage

/-- Task mirrors the Go struct Task: ID uint, Prompt string, Status string
(one of Pending, Processing, Completed, Failed), ImagePath string, and the
two gorm-managed timestamps, modelled as naturals. -/
structure Task where
  id        : Nat
  prompt    : String
  status    : String
  imagePath : String
  createdAt : Nat
  updatedAt : Nat
deriving Repr, DecidableEq

/-- A task row matching the WHERE clause status = Pending of taskWorker. -/
def isPending (t : Task) : Bool := t.status == "Pending"

/-- Strict ordering on the pair (createdAt, id): the ORDER BY created_at asc
of taskWorker combined with the primary-key ordering that the gorm First
finisher appends. -/
def keyLt (a b : Task) : Prop :=
  a.createdAt < b.createdAt ∨ (a.createdAt = b.createdAt ∧ a.id < b.id)

instance (a b : Task) : Decidable (keyLt a b) := by
  unfold keyLt; infer_instance

/-- Of two rows, the one coming first in the ORDER BY created_at asc, id asc
ordering used by the claiming SELECT. -/
def better (a b : Task) : Task := if keyLt a b then a else b

/-- The row returned by the claiming SELECT of taskWorker: the Pending task
minimal in the (createdAt, id) ordering, none when no Pending row exists
(gorm reports this as ErrRecordNotFound). -/
def selectPending (tasks : List Task) : Option Task :=
  match tasks.filter isPending with
  | [] => none
  | t :: ts => some (ts.foldl better t)

/-- In-transaction update task.Status = Processing of taskWorker; the gorm
Save bumps UpdatedAt. -/
def markProcessing (now : Nat) (t : Task) : Task :=
  { t with status := "Processing", updatedAt := now }

/-- Persisting a record with db.Save or tx.Save: the row whose primary key
matches is replaced, every other row is untouched. -/
def saveTask (tasks : List Task) (t : Task) : List Task :=
  tasks.map (fun u => if u.id = t.id then t else u)

/-- The whole claiming transaction of taskWorker in src/unnamed/part_001:
select the first Pending row under a row-level update lock, mark it
Processing, save it, and return it, all inside one db.Transaction, hence
one atomic step here.  Yields none when no Pending row exists. -/
def claimNext (now : Nat) (tasks : List Task) : Option Task × List Task :=
  match selectPending tasks with
  | none => (none, tasks)
  | some t =>
    let t' := markProcessing now t
    (some t', saveTask tasks t')

/-- SQLite assigns a fresh rowid, one above the largest id in the table. -/
def nextId (tasks : List Task) : Nat :=
  (tasks.map Task.id).foldr max 0 + 1

/-- db.Create in the create_task branch of serveWs: a new row with the given
prompt, status Pending, zero-value ImagePath, and fresh id. -/
def enqueueTask (prompt : String) (now : Nat) (tasks : List Task) :
    Task × List Task :=
  let t : Task :=
    { id := nextId tasks, prompt := prompt, status := "Pending",
      imagePath := "", createdAt := now, updatedAt := now }
  (t, tasks ++ [t])

/-- The ids of the Pending rows, in table order. -/
def pendingIds (tasks : List Task) : List Nat :=
  (tasks.filter isPending).map Task.id

/-- A sequence of claiming transactions, one per timestamp in nows: since
each transaction is a single isolation boundary, any interleaving of
concurrent callers is one such sequence.  Returns the successfully claimed
tasks in claim order together with the final table. -/
def claimRun : List Nat → List Task → List Task × List Task
  | [], tasks => ([], tasks)
  | now :: rest, tasks =>
    match claimNext now tasks with
    | (none, tasks') => claimRun rest tasks'
    | (some t, tasks') =>
      let r := claimRun rest tasks'
      (t :: r.1, r.2)

/-- Reflexive version of the claiming order on (createdAt, id). -/
def keyLe (a b : Task) : Prop :=
  a.createdAt < b.createdAt ∨ (a.createdAt = b.createdAt ∧ a.id ≤ b.id)

lemma keyLe_refl (a : Task) : keyLe a a := Or.inr ⟨rfl, le_refl _⟩

lemma keyLe_of_keyLt {a b : Task} (h : keyLt a b) : keyLe a b := by
  rcases h with h | ⟨h1, h2⟩
  · exact Or.inl h
  · exact Or.inr ⟨h1, Nat.le_of_lt h2⟩

lemma keyLe_of_not_keyLt {a b : Task} (h : ¬ keyLt a b) : keyLe b a := by
  unfold keyLt at h
  push_neg at h
  rcases Nat.lt_or_ge b.createdAt a.createdAt with h1 | h1
  · exact Or.inl h1
  · have h2 : a.createdAt = b.createdAt := Nat.le_antisymm h1 h.1
    exact Or.inr ⟨h2.symm, h.2 h2⟩

lemma keyLe_trans {a b c : Task} (h1 : keyLe a b) (h2 : keyLe b c) :
    keyLe a c := by
  rcases h1 with h1 | ⟨e1, l1⟩ <;> rcases h2 with h2 | ⟨e2, l2⟩
  · exact Or.inl (Nat.lt_trans h1 h2)
  · exact Or.inl (e2 ▸ h1)
  · exact Or.inl (e1 ▸ h2)
  · exact Or.inr ⟨e1.trans e2, Nat.le_trans l1 l2⟩

lemma better_eq_or (a b : Task) : better a b = a ∨ better a b = b := by
  unfold better; split <;> simp

lemma keyLe_better_left (a b : Task) : keyLe (better a b) a := by
  unfold better; split
  · exact keyLe_refl a
  · exact keyLe_of_not_keyLt (by assumption)

lemma keyLe_better_right (a b : Task) : keyLe (better a b) b := by
  unfold better; split
  · exact keyLe_of_keyLt (by assumption)
  · exact keyLe_refl b

lemma foldl_better_mem (ts : List Task) (t : Task) :
    ts.foldl better t ∈ t :: ts := by
  induction ts generalizing t with
  | nil => simp
  | cons a ts ih =>
    have h := ih (better t a)
    rcases better_eq_or t a with e | e <;>
      simp only [List.foldl_cons] <;> rw [e] at h ⊢ <;>
      simp only [List.mem_cons] at h ⊢ <;> tauto

lemma foldl_better_le (ts : List Task) (t : Task) :
    ∀ u ∈ t :: ts, keyLe (ts.foldl better t) u := by
  induction ts generalizing t with
  | nil =>
    intro u hu
    simp only [List.mem_singleton] at hu
    subst hu; exact keyLe_refl u
  | cons a ts ih =>
    intro u hu
    simp only [List.foldl_cons]
    have hhead := ih (better t a) (better t a) (List.mem_cons_self _ _)
    simp only [List.mem_cons] at hu
    rcases hu with rfl | rfl | hu
    · exact keyLe_trans hhead (keyLe_better_left u a)
    · exact keyLe_trans hhead (keyLe_better_right t u)
    · exact ih (better t a) u (List.mem_cons_of_mem _ hu)

lemma selectPending_mem {tasks : List Task} {t : Task}
    (h : selectPending tasks = some t) : t ∈ tasks ∧ isPending t = true := by
  unfold selectPending at h
  rcases e : tasks.filter isPending with _ | ⟨t0, ts⟩ <;> rw [e] at h
  · simp at h
  · simp only [Option.some.injEq] at h
    have hm : t ∈ t0 :: ts := h ▸ foldl_better_mem ts t0
    rw [← e] at hm
    exact ⟨(List.mem_filter.mp hm).1, (List.mem_filter.mp hm).2⟩

lemma selectPending_min {tasks : List Task} {t : Task}
    (h : selectPending tasks = some t) :
    ∀ u ∈ tasks, isPending u = true → keyLe t u := by
  intro u hu hp
  unfold selectPending at h
  rcases e : tasks.filter isPending with _ | ⟨t0, ts⟩ <;> rw [e] at h
  · simp at h
  · simp only [Option.some.injEq] at h
    have hm : u ∈ t0 :: ts := e ▸ List.mem_filter.mpr ⟨hu, hp⟩
    exact h ▸ foldl_better_le ts t0 u hm

lemma selectPending_isSome {tasks : List Task} {u : Task}
    (hu : u ∈ tasks) (hp : isPending u = true) :
    ∃ t, selectPending tasks = some t := by
  unfold selectPending
  rcases e : tasks.filter isPending with _ | ⟨t0, ts⟩
  · exact absurd (List.mem_filter.mpr ⟨hu, hp⟩) (by simp [e])
  · exact ⟨_, rfl⟩

lemma selectPending_none {tasks : List Task}
    (h : selectPending tasks = none) : tasks.filter isPending = [] := by
  unfold selectPending at h
  rcases e : tasks.filter isPending with _ | ⟨t0, ts⟩
  · rfl
  · rw [e] at h; simp at h

lemma saveTask_map_id (tasks : List Task) (t : Task) :
    (saveTask tasks t).map Task.id = tasks.map Task.id := by
  unfold saveTask
  rw [List.map_map]
  apply List.map_congr_left
  intro u _
  by_cases h : u.id = t.id <;> simp [h]

lemma isPending_markProcessing (now : Nat) (t : Task) :
    isPending (markProcessing now t) = false := rfl

lemma pendingIds_saveTask (tasks : List Task) (t : Task)
    (ht : isPending t = false) :
    pendingIds (saveTask tasks t) =
      (pendingIds tasks).filter (fun i => i != t.id) := by
  induction tasks with
  | nil => rfl
  | cons u us ih =>
    by_cases hid : u.id = t.id <;> by_cases hp : isPending u = true <;>
      simp only [saveTask, List.map_cons, pendingIds, List.filter_cons] at ih ⊢ <;>
      simp [hid, hp, ht, ih]

lemma pendingIds_nodup {tasks : List Task}
    (h : (tasks.map Task.id).Nodup) : (pendingIds tasks).Nodup :=
  ((List.filter_sublist tasks).map Task.id).nodup h

lemma claimNext_none {now : Nat} {tasks tasks' : List Task}
    (h : claimNext now tasks = (none, tasks')) :
    tasks' = tasks ∧ pendingIds tasks = [] := by
  unfold claimNext at h
  rcases e : selectPending tasks with _ | t <;> rw [e] at h
  · refine ⟨(Prod.mk.injEq _ _ _ _ ▸ h).2.symm, ?_⟩
    simp [pendingIds, selectPending_none e]
  · simp at h

lemma claimNext_some {now : Nat} {tasks ts' : List Task} {t' : Task}
    (h : claimNext now tasks = (some t', ts')) :
    ∃ t, selectPending tasks = some t ∧ t ∈ tasks ∧ isPending t = true ∧
      t' = markProcessing now t ∧ ts' = saveTask tasks t' := by
  unfold claimNext at h
  rcases e : selectPending tasks with _ | t <;> rw [e] at h
  · simp at h
  · simp only [Prod.mk.injEq, Option.some.injEq] at h
    exact ⟨t, rfl, (selectPending_mem e).1, (selectPending_mem e).2,
      h.1.symm, by rw [← h.1, ← h.2]⟩

lemma claimNext_some_facts {now : Nat} {tasks ts' : List Task} {t' : Task}
    (h : claimNext now tasks = (some t', ts')) :
    t'.id ∈ pendingIds tasks ∧
    pendingIds ts' = (pendingIds tasks).filter (fun i => i != t'.id) ∧
    ts'.map Task.id = tasks.map Task.id := by
  obtain ⟨t, _, hmem, hp, ht', hts'⟩ := claimNext_some h
  have hid : t'.id = t.id := by rw [ht']; rfl
  refine ⟨?_, ?_, ?_⟩
  · rw [hid]
    exact List.mem_map_of_mem Task.id (List.mem_filter.mpr ⟨hmem, hp⟩)
  · rw [hts']
    exact pendingIds_saveTask tasks t'
      (by rw [ht']; exact isPending_markProcessing now t)
  · rw [hts']; exact saveTask_map_id tasks t'

lemma claimRun_spec (nows : List Nat) (tasks : List Task)
    (h : (tasks.map Task.id).Nodup) :
    (claimRun nows tasks).1.length = min nows.length (pendingIds tasks).length ∧
    ((claimRun nows tasks).1.map Task.id).Nodup ∧
    ∀ t ∈ (claimRun nows tasks).1, t.id ∈ pendingIds tasks := by
  induction nows generalizing tasks with
  | nil => simp [claimRun]
  | cons now rest ih =>
    rcases e : claimNext now tasks with ⟨o, ts'⟩
    rcases o with _ | t'
    · obtain ⟨rfl, hpe⟩ := claimNext_none e
      obtain ⟨ihlen, ihnodup, ihmem⟩ := ih ts' h
      simp only [claimRun, e]
      exact ⟨by simp [hpe] at ihlen ⊢; exact ihlen, ihnodup, ihmem⟩
    · obtain ⟨hmem, hpe, hmap⟩ := claimNext_some_facts e
      have h' : (ts'.map Task.id).Nodup := hmap ▸ h
      obtain ⟨ihlen, ihnodup, ihmem⟩ := ih ts' h'
      have pnodup : (pendingIds tasks).Nodup := pendingIds_nodup h
      have herase : pendingIds ts' = (pendingIds tasks).erase t'.id := by
        rw [hpe, pnodup.erase_eq_filter]
      have hlen' : (pendingIds ts').length = (pendingIds tasks).length - 1 := by
        rw [herase]; exact List.length_erase_of_mem hmem
      have hpos : 0 < (pendingIds tasks).length := List.length_pos_of_mem hmem
      simp only [claimRun, e]
      refine ⟨?_, ?_, ?_⟩
      · simp only [List.length_cons, ihlen, hlen']
        omega
      · simp only [List.map_cons, List.nodup_cons]
        refine ⟨?_, ihnodup⟩
        intro hc
        obtain ⟨x, hx, hxid⟩ := List.mem_map.mp hc
        have := ihmem x hx
        rw [hpe] at this
        have := List.mem_filter.mp this
        simp [hxid] at this
      · intro t ht
        rcases List.mem_cons.mp ht with rfl | ht
        · exact hmem
        · have := ihmem t ht
          rw [hpe] at this
          exact (List.mem_filter.mp this).1

/-- Payload of an outbound WSResponse: the Data field is interface left
open in Go; the program only ever stores one Task or a slice of tasks. -/
inductive WSData where
  | task (t : Task)
  | tasks (ts : List Task)
deriving Repr, DecidableEq

/-- Outbound message format WSResponse with Type one of history, update,
new_task. -/
structure WSResponse where
  type : String
  data : WSData
deriving Repr, DecidableEq

/-- notifyUpdate marshals an update WSResponse for the task and puts it on
the broadcast channel; here it is the message value itself. -/
def notifyUpdate (t : Task) : WSResponse := ⟨"update", WSData.task t⟩

/-- The worker loop either sits between iterations (idle) or holds the
task it claimed, between the committed claiming transaction and the final
db.Save. -/
inductive WorkerState where
  | idle
  | busy (t : Task)
deriving Repr, DecidableEq

/-- Global state touched by the worker and the sessions: the task table
and the worker position. -/
structure SysState where
  tasks  : List Task
  worker : WorkerState
deriving Repr, DecidableEq

/-- Observable outcome of the claiming half of one taskWorker iteration:
the new state, the broadcast messages, whether a database transaction
error was logged, and how long the loop then sleeps. -/
structure ClaimResult where
  state : SysState
  events : List WSResponse
  loggedDbError : Bool
  sleep : Option Nat
deriving Repr, DecidableEq

/-- First half of the taskWorker loop body in src/unnamed/part_001: run
the claiming transaction; an error other than gorm.ErrRecordNotFound is
logged as a database transaction error; record-not-found leaves found
false, is not logged, and the worker sleeps 2 time units; on success the
worker holds the claimed task and notifyUpdate is broadcast.  The dbFault
argument injects a storage fault, in which case the transaction rolls
back and the table is unchanged. -/
def workerClaim (dbFault : Option String) (now : Nat) (s : SysState) :
    ClaimResult :=
  match s.worker with
  | WorkerState.busy _ => ⟨s, [], false, none⟩
  | WorkerState.idle =>
    match dbFault with
    | some _ => ⟨s, [], true, some 2⟩
    | none =>
      match claimNext now s.tasks with
      | (none, _) => ⟨s, [], false, some 2⟩
      | (some t', ts') =>
        ⟨⟨ts', WorkerState.busy t'⟩, [notifyUpdate t'], false, none⟩

/-- Second half of the taskWorker loop body: the collaborator outcome of
runPythonZImage decides the final status; an error sets Status Failed and
leaves ImagePath alone, success sets Completed and ImagePath; db.Save
persists the row and notifyUpdate broadcasts it, and the loop goes on. -/
def finalTask (gen : Except String String) (now : Nat) (t : Task) : Task :=
  match gen with
  | Except.error _ => { t with status := "Failed", updatedAt := now }
  | Except.ok path =>
    { t with status := "Completed", imagePath := path, updatedAt := now }

/-- Second half continued: persist the final record and broadcast it. -/
def workerFinalize (gen : Except String String) (now : Nat) (s : SysState) :
    SysState × List WSResponse :=
  match s.worker with
  | WorkerState.idle => (s, [])
  | WorkerState.busy t =>
    (⟨saveTask s.tasks (finalTask gen now t), WorkerState.idle⟩,
     [notifyUpdate (finalTask gen now t)])

/-- The operations that write the task table: a create_task request
(db.Create in serveWs) and the two halves of a worker iteration. -/
inductive SysOp where
  | enqueue (prompt : String) (now : Nat)
  | claim (dbFault : Option String) (now : Nat)
  | finalize (gen : Except String String) (now : Nat)

/-- Apply one operation, returning the new state and the broadcast
messages it produced. -/
def applyOp (op : SysOp) (s : SysState) : SysState × List WSResponse :=
  match op with
  | SysOp.enqueue p now =>
    let r := enqueueTask p now s.tasks
    (⟨r.2, s.worker⟩, [⟨"new_task", WSData.task r.1⟩])
  | SysOp.claim f now =>
    let r := workerClaim f now s
    (r.state, r.events)
  | SysOp.finalize g now => workerFinalize g now s

/-- The empty table after AutoMigrate, worker between iterations. -/
def initState : SysState := ⟨[], WorkerState.idle⟩

/-- Run a sequence of operations from the initial state. -/
def runOps (ops : List SysOp) : SysState :=
  ops.foldl (fun s op => (applyOp op s).1) initState

/-- One live WebSocket connection as the hub sees it: its key in the
clients map and the ordered log of messages successfully written to it. -/
structure Conn where
  cid : Nat
  log : List WSResponse
deriving Repr, DecidableEq

/-- One iteration of the dispatcher loop in handleMessages: the message
taken from the broadcast channel is written to every registered client; a
client whose write fails is closed and deleted without receiving it, and
every other client appends it to its log.  The fail argument says which
client sockets are dead at this dispatch. -/
def dispatchEvent (fail : Nat → Bool) (msg : WSResponse) (conns : List Conn) :
    List Conn :=
  (conns.filter (fun c => !(fail c.cid))).map
    (fun c => { c with log := c.log ++ [msg] })

/-- Hub state: the clients map plus the ghost list of messages already
dispatched, in dispatch order; since the broadcast channel is drained by
the single handleMessages goroutine, dispatch order is publish order. -/
structure HubState where
  conns : List Conn
  published : List WSResponse
deriving Repr, DecidableEq

/-- What can happen to the hub: one publish-and-dispatch, a registration
(clients[ws] = true in serveWs), or an unregistration (delete on read
failure). -/
inductive HubAct where
  | publish (msg : WSResponse) (fail : Nat → Bool)
  | register (cid : Nat)
  | unregister (cid : Nat)

/-- Hub transition for one action. -/
def hubStep (a : HubAct) (s : HubState) : HubState :=
  match a with
  | HubAct.publish msg fail =>
    ⟨dispatchEvent fail msg s.conns, s.published ++ [msg]⟩
  | HubAct.register cid => ⟨s.conns ++ [⟨cid, []⟩], s.published⟩
  | HubAct.unregister cid =>
    ⟨s.conns.filter (fun c => !(c.cid == cid)), s.published⟩

/-- Fold a list of hub actions from the empty hub. -/
def hubRun (acts : List HubAct) : HubState :=
  acts.foldl (fun s a => hubStep a s) ⟨[], []⟩

/-- Inbound message format WSMessage with Type and Prompt. -/
structure WSMessage where
  type : String
  prompt : String
deriving Repr, DecidableEq

/-- Effect of one handled inbound message in serveWs: the updated task
table, the messages put on the broadcast channel, and the private replies
written with ws.WriteJSON to the requesting connection only. -/
structure SessionEffect where
  tasks : List Task
  broadcasts : List WSResponse
  replies : List WSResponse
deriving Repr, DecidableEq

/-- The get_history query of serveWs: ORDER BY created_at desc LIMIT 20
over the task table. -/
def recentHistory (tasks : List Task) : List Task :=
  (List.insertionSort (fun a b => b.createdAt ≤ a.createdAt) tasks).take 20

/-- The if/else-if dispatch of serveWs on msg.Type: get_history replies
privately with the recent history, create_task inserts a Pending row and
broadcasts it as new_task, anything else does nothing. -/
def handleClientMessage (msg : WSMessage) (now : Nat) (tasks : List Task) :
    SessionEffect :=
  if msg.type == "get_history" then
    ⟨tasks, [], [⟨"history", WSData.tasks (recentHistory tasks)⟩]⟩
  else if msg.type == "create_task" then
    let r := enqueueTask msg.prompt now tasks
    ⟨r.2, [⟨"new_task", WSData.task r.1⟩], []⟩
  else
    ⟨tasks, [], []⟩

/-- One read of the serveWs loop: either ReadJSON fails, or a message
arrives together with the fate of the ws.WriteJSON call for any private
reply. -/
inductive ReadEvent where
  | received (m : WSMessage) (replyFail : Bool)
  | readError
deriving Repr, DecidableEq

/-- Result of one serveWs loop iteration: new table, new clients list,
broadcast channel messages, and whether the loop keeps reading. -/
structure SessionStepResult where
  tasks : List Task
  conns : List Conn
  broadcasts : List WSResponse
  continues : Bool
deriving Repr, DecidableEq

/-- Write the private replies to the requesting connection when the write
succeeds; serveWs drops the error of ws.WriteJSON, so on failure nothing
changes and in particular the connection stays in clients. -/
def deliverReplies (cid : Nat) (rs : List WSResponse) (ok : Bool)
    (conns : List Conn) : List Conn :=
  if ok then
    conns.map (fun c =>
      if c.cid == cid then { c with log := c.log ++ rs } else c)
  else conns

/-- One iteration of the read loop of serveWs for the connection cid: a
ReadJSON error deletes the connection from clients and breaks the loop;
a received message is handled by the if/else-if dispatch, its private
replies are written to this connection only (a failed write is ignored),
and the loop continues. -/
def sessionStep (cid : Nat) (ev : ReadEvent) (now : Nat) (tasks : List Task)
    (conns : List Conn) : SessionStepResult :=
  match ev with
  | ReadEvent.readError =>
    ⟨tasks, conns.filter (fun c => !(c.cid == cid)), [], false⟩
  | ReadEvent.received m replyFail =>
    let eff := handleClientMessage m now tasks
    ⟨eff.tasks, deliverReplies cid eff.replies (!replyFail) conns,
      eff.broadcasts, true⟩

lemma le_foldr_max (l : List Nat) : ∀ i ∈ l, i ≤ l.foldr max 0 := by
  induction l with
  | nil => simp
  | cons a l ih =>
    intro i hi
    simp only [List.foldr_cons]
    rcases List.mem_cons.mp hi with rfl | hi
    · exact Nat.le_max_left _ _
    · exact Nat.le_trans (ih i hi) (Nat.le_max_right _ _)

lemma nextId_not_mem (tasks : List Task) :
    nextId tasks ∉ tasks.map Task.id := by
  intro h
  have := le_foldr_max _ _ h
  unfold nextId at this
  omega

lemma mem_saveTask_cases {tasks : List Task} {t v : Task}
    (h : v ∈ saveTask tasks t) : v = t ∨ (v ∈ tasks ∧ ¬ v.id = t.id) := by
  unfold saveTask at h
  obtain ⟨w, hw, hfw⟩ := List.mem_map.mp h
  by_cases hid : w.id = t.id
  · left; rw [← hfw, if_pos hid]
  · right
    rw [if_neg hid] at hfw
    exact ⟨hfw ▸ hw, hfw ▸ hid⟩

lemma self_mem_saveTask {tasks : List Task} {t w : Task} (hw : w ∈ tasks)
    (hid : w.id = t.id) : t ∈ saveTask tasks t := by
  unfold saveTask
  apply List.mem_map.mpr
  exact ⟨w, hw, by rw [if_pos hid]⟩

lemma isPending_iff {t : Task} : isPending t = true ↔ t.status = "Pending" := by
  simp [isPending]

lemma eq_of_mem_id {tasks : List Task} (hnd : (tasks.map Task.id).Nodup)
    {u v : Task} (hu : u ∈ tasks) (hv : v ∈ tasks) (hid : u.id = v.id) :
    u = v :=
  List.inj_on_of_nodup_map hnd hu hv hid

lemma finalTask_id (g : Except String String) (now : Nat) (t : Task) :
    (finalTask g now t).id = t.id := by
  rcases g <;> rfl

lemma finalTask_status (g : Except String String) (now : Nat) (t : Task) :
    (finalTask g now t).status = "Failed" ∨
      (finalTask g now t).status = "Completed" := by
  rcases g with _ | _
  · left; rfl
  · right; rfl

lemma finalTask_not_pending (g : Except String String) (now : Nat)
    (t : Task) : ¬ (finalTask g now t).status = "Pending" := by
  rcases finalTask_status g now t with h | h <;> rw [h] <;> decide

/-- Reachability invariant of the table and the worker: primary keys are
unique, a Pending row has no image path yet, and a busy worker holds a
Processing copy of a row that is Processing in the table. -/
structure Inv (s : SysState) : Prop where
  nodup : (s.tasks.map Task.id).Nodup
  pending_unset : ∀ u ∈ s.tasks, u.status = "Pending" → u.imagePath = ""
  busy_proc : ∀ t, s.worker = WorkerState.busy t →
    t.status = "Processing" ∧ t.imagePath = "" ∧
    ∃ u ∈ s.tasks, u.id = t.id ∧ u.status = "Processing"

lemma inv_enqueue {s : SysState} (hs : Inv s) (p : String) (now : Nat) :
    Inv (applyOp (SysOp.enqueue p now) s).1 := by
  constructor
  · show ((s.tasks ++ [_]).map Task.id).Nodup
    rw [List.map_append, List.nodup_append]
    refine ⟨hs.nodup, List.nodup_singleton _, ?_⟩
    intro i hi hj
    simp only [List.map_cons, List.map_nil, List.mem_singleton] at hj
    subst hj
    exact nextId_not_mem _ hi
  · intro u hu hp
    rcases List.mem_append.mp hu with hu | hu
    · exact hs.pending_unset u hu hp
    · simp only [List.mem_singleton] at hu
      subst hu; rfl
  · intro t ht
    obtain ⟨h1, h2, u, hu, hid, hst⟩ := hs.busy_proc t ht
    exact ⟨h1, h2, u, List.mem_append_left _ hu, hid, hst⟩

lemma workerClaim_busy {s : SysState} {t : Task}
    (hw : s.worker = WorkerState.busy t) (f : Option String) (now : Nat) :
    workerClaim f now s = ⟨s, [], false, none⟩ := by
  unfold workerClaim; rw [hw]

lemma workerClaim_fault {s : SysState} (hw : s.worker = WorkerState.idle)
    (m : String) (now : Nat) :
    workerClaim (some m) now s = ⟨s, [], true, some 2⟩ := by
  unfold workerClaim; rw [hw]

lemma workerClaim_notFound {s : SysState} (hw : s.worker = WorkerState.idle)
    {now : Nat} {ts' : List Task}
    (e : claimNext now s.tasks = (none, ts')) :
    workerClaim none now s = ⟨s, [], false, some 2⟩ := by
  unfold workerClaim; rw [hw, e]

lemma workerClaim_found {s : SysState} (hw : s.worker = WorkerState.idle)
    {now : Nat} {t' : Task} {ts' : List Task}
    (e : claimNext now s.tasks = (some t', ts')) :
    workerClaim none now s =
      ⟨⟨ts', WorkerState.busy t'⟩, [notifyUpdate t'], false, none⟩ := by
  unfold workerClaim; rw [hw, e]

lemma inv_claim {s : SysState} (hs : Inv s) (f : Option String) (now : Nat) :
    Inv (applyOp (SysOp.claim f now) s).1 := by
  show Inv (workerClaim f now s).state
  rcases hw : s.worker with _ | t0
  · rcases f with _ | m
    · rcases e : claimNext now s.tasks with ⟨o, ts'⟩
      rcases o with _ | t'
      · rw [workerClaim_notFound hw e]; exact hs
      · rw [workerClaim_found hw e]
        obtain ⟨t, hsel, hmem, hp, ht', hts'⟩ := claimNext_some e
        have hid' : t'.id = t.id := by rw [ht']; rfl
        constructor
        · show (ts'.map Task.id).Nodup
          rw [hts', saveTask_map_id]; exact hs.nodup
        · intro u hu hpu
          rw [hts'] at hu
          rcases mem_saveTask_cases hu with rfl | ⟨hu, _⟩
          · rw [ht'] at hpu
            exact absurd hpu (by simp [markProcessing])
          · exact hs.pending_unset u hu hpu
        · intro t'' ht''
          simp only [WorkerState.busy.injEq] at ht''
          subst ht''
          refine ⟨by rw [ht']; rfl, ?_, ?_⟩
          · rw [ht']
            show t.imagePath = ""
            exact hs.pending_unset t hmem (isPending_iff.mp hp)
          · refine ⟨t', ?_, rfl, by rw [ht']; rfl⟩
            rw [hts']
            exact self_mem_saveTask hmem hid'.symm
    · rw [workerClaim_fault hw m now]; exact hs
  · rw [workerClaim_busy hw f now]; exact hs

lemma inv_finalize {s : SysState} (hs : Inv s) (g : Except String String)
    (now : Nat) : Inv (applyOp (SysOp.finalize g now) s).1 := by
  show Inv (workerFinalize g now s).1
  rcases hw : s.worker with _ | t
  · have he : workerFinalize g now s = (s, []) := by
      unfold workerFinalize; rw [hw]
    rw [he]; exact hs
  · have he : workerFinalize g now s =
        (⟨saveTask s.tasks (finalTask g now t), WorkerState.idle⟩,
         [notifyUpdate (finalTask g now t)]) := by
      unfold workerFinalize; rw [hw]
    rw [he]
    constructor
    · show ((saveTask s.tasks (finalTask g now t)).map Task.id).Nodup
      rw [saveTask_map_id]; exact hs.nodup
    · intro u hu hpu
      rcases mem_saveTask_cases hu with rfl | ⟨hu, _⟩
      · exact absurd hpu (finalTask_not_pending g now t)
      · exact hs.pending_unset u hu hpu
    · intro t'' ht''
      simp at ht''

lemma inv_applyOp {s : SysState} (hs : Inv s) (op : SysOp) :
    Inv (applyOp op s).1 := by
  rcases op with ⟨p, now⟩ | ⟨f, now⟩ | ⟨g, now⟩
  · exact inv_enqueue hs p now
  · exact inv_claim hs f now
  · exact inv_finalize hs g now

lemma inv_foldl (ops : List SysOp) (s : SysState) (hs : Inv s) :
    Inv (ops.foldl (fun s op => (applyOp op s).1) s) := by
  induction ops generalizing s with
  | nil => exact hs
  | cons op rest ih => exact ih _ (inv_applyOp hs op)

lemma inv_runOps (ops : List SysOp) : Inv (runOps ops) :=
  inv_foldl ops initState
    ⟨by simp [initState], by simp [initState], by simp [initState]⟩

lemma mem_dispatchEvent {conns : List Conn} {c : Conn} (hc : c ∈ conns)
    {fail : Nat → Bool} (hf : fail c.cid = false) (msg : WSResponse) :
    (⟨c.cid, c.log ++ [msg]⟩ : Conn) ∈ dispatchEvent fail msg conns := by
  unfold dispatchEvent
  apply List.mem_map.mpr
  exact ⟨c, List.mem_filter.mpr ⟨hc, by simp [hf]⟩, rfl⟩

lemma mem_dispatchEvent_iff {conns : List Conn} {fail : Nat → Bool}
    {msg : WSResponse} {c' : Conn} :
    c' ∈ dispatchEvent fail msg conns ↔
      ∃ c ∈ conns, fail c.cid = false ∧ c' = ⟨c.cid, c.log ++ [msg]⟩ := by
  unfold dispatchEvent
  constructor
  · intro h
    obtain ⟨c, hc, rfl⟩ := List.mem_map.mp h
    have := List.mem_filter.mp hc
    exact ⟨c, this.1, by simpa using this.2, rfl⟩
  · rintro ⟨c, hc, hf, rfl⟩
    exact List.mem_map.mpr ⟨c, List.mem_filter.mpr ⟨hc, by simp [hf]⟩, rfl⟩

lemma hub_foldl_sublist (acts : List HubAct) (s : HubState)
    (hs : ∀ c ∈ s.conns, c.log.Sublist s.published) :
    ∀ c ∈ (acts.foldl (fun s a => hubStep a s) s).conns,
      c.log.Sublist (acts.foldl (fun s a => hubStep a s) s).published := by
  induction acts generalizing s with
  | nil => exact hs
  | cons a rest ih =>
    apply ih
    intro c hc
    rcases a with ⟨msg, fail⟩ | cid | cid
    · simp only [hubStep] at hc ⊢
      obtain ⟨c0, hc0, rfl⟩ := List.mem_map.mp hc
      have hm := List.mem_filter.mp hc0
      exact (hs c0 hm.1).append (List.Sublist.refl [msg])
    · simp only [hubStep] at hc ⊢
      rcases List.mem_append.mp hc with hc | hc
      · exact hs c hc
      · simp only [List.mem_singleton] at hc
        subst hc
        exact List.nil_sublist _
    · simp only [hubStep] at hc ⊢
      exact hs c (List.mem_filter.mp hc).1

lemma hub_logs_sublist (acts : List HubAct) :
    ∀ c ∈ (hubRun acts).conns, c.log.Sublist (hubRun acts).published :=
  hub_foldl_sublist acts ⟨[], []⟩ (by simp)

instance : IsTotal Task (fun a b => b.createdAt ≤ a.createdAt) :=
  ⟨fun a b => (Nat.le_total b.createdAt a.createdAt)⟩

instance : IsTrans Task (fun a b => b.createdAt ≤ a.createdAt) :=
  ⟨fun _ _ _ h1 h2 => Nat.le_trans h2 h1⟩

lemma deliverReplies_nil (cid : Nat) (ok : Bool) (conns : List Conn) :
    deliverReplies cid [] ok conns = conns := by
  unfold deliverReplies
  rcases ok with _ | _
  · rfl
  · show conns.map _ = conns
    have he : (fun c : Conn =>
        if c.cid == cid then { c with log := c.log ++ [] } else c) =
        fun c => c := by
      funext c
      by_cases h : c.cid == cid <;> simp [h]
    rw [he]
    exact List.map_id' conns

/-- Legal status edges of the task lifecycle: Pending to Processing, and
Processing to Completed or Failed. -/
def legalEdge (a b : String) : Prop :=
  (a = "Pending" ∧ b = "Processing") ∨
  (a = "Processing" ∧ (b = "Completed" ∨ b = "Failed"))

instance (a b : String) : Decidable (legalEdge a b) := by
  unfold legalEdge; infer_instance

/-- Two sample Pending rows sharing createdAt, with ids 2 and 1, stored
in that table order. -/
def sampleTasks : List Task :=
  [⟨2, "b", "Pending", "", 0, 0⟩, ⟨1, "a", "Pending", "", 0, 0⟩]

/-- C1: claim exclusivity.  The select-and-mark-Processing step of
taskWorker is one transaction, embedded as the single atomic step
claimNext, so every interleaving of concurrent callers is a sequence of
claimNext calls; over any sequence long enough to serve the M Pending
tasks of a table with unique primary keys, exactly M claims succeed, no
task is ever returned to two callers, and every Pending task is returned
to exactly one caller. -/
theorem claim_exclusivity (nows : List Nat) (tasks : List Task)
    (hnd : (tasks.map Task.id).Nodup)
    (hk : (pendingIds tasks).length ≤ nows.length) :
    (claimRun nows tasks).1.length = (pendingIds tasks).length ∧
    ((claimRun nows tasks).1.map Task.id).Nodup ∧
    (∀ t ∈ (claimRun nows tasks).1, t.id ∈ pendingIds tasks) ∧
    (∀ i ∈ pendingIds tasks, i ∈ (claimRun nows tasks).1.map Task.id) := by
  obtain ⟨hlen, hnodup, hmem⟩ := claimRun_spec nows tasks hnd
  have hlen' : (claimRun nows tasks).1.length = (pendingIds tasks).length := by
    rw [hlen]; omega
  refine ⟨hlen', hnodup, hmem, ?_⟩
  intro i hi
  have hsub : ((claimRun nows tasks).1.map Task.id).toFinset ⊆
      (pendingIds tasks).toFinset := by
    intro x hx
    rw [List.mem_toFinset] at hx ⊢
    obtain ⟨t, ht, rfl⟩ := List.mem_map.mp hx
    exact hmem t ht
  have hcard : (pendingIds tasks).toFinset.card ≤
      ((claimRun nows tasks).1.map Task.id).toFinset.card := by
    rw [List.toFinset_card_of_nodup hnodup,
      List.toFinset_card_of_nodup (pendingIds_nodup hnd),
      List.length_map, hlen']
  have heq := Finset.eq_of_subset_of_card_le hsub hcard
  have hin : i ∈ ((claimRun nows tasks).1.map Task.id).toFinset := by
    rw [heq, List.mem_toFinset]; exact hi
  exact List.mem_toFinset.mp hin

/-- Witness for claim_exclusivity on a two-task table: two claim calls
drain both Pending rows. -/
theorem claim_exclusivity_witness :
    (sampleTasks.map Task.id).Nodup ∧
    (pendingIds sampleTasks).length ≤ ([10, 11] : List Nat).length ∧
    (claimRun [10, 11] sampleTasks).1.length =
      (pendingIds sampleTasks).length :=
  ⟨by decide, by decide,
    (claim_exclusivity [10, 11] sampleTasks (by decide) (by decide)).1⟩

/-- C3: FIFO claim order.  When a Pending task exists, the claiming
SELECT of taskWorker returns the Pending task minimal in (createdAt, id),
so among equal createdAt the smaller id is claimed first, and claimNext
returns exactly that task marked Processing. -/
theorem fifo_claim_order (now : Nat) (tasks : List Task)
    (h : ∃ u ∈ tasks, isPending u = true) :
    ∃ t, selectPending tasks = some t ∧ t ∈ tasks ∧ isPending t = true ∧
      (∀ u ∈ tasks, isPending u = true →
        t.createdAt < u.createdAt ∨
          (t.createdAt = u.createdAt ∧ t.id ≤ u.id)) ∧
      (claimNext now tasks).1 = some (markProcessing now t) := by
  obtain ⟨u, hu, hp⟩ := h
  obtain ⟨t, ht⟩ := selectPending_isSome hu hp
  refine ⟨t, ht, (selectPending_mem ht).1, (selectPending_mem ht).2, ?_, ?_⟩
  · intro v hv hpv
    exact selectPending_min ht v hv hpv
  · unfold claimNext
    rw [ht]

/-- Witness for fifo_claim_order: with two Pending rows of equal
createdAt, the one with the smaller id is claimed. -/
theorem fifo_claim_order_witness :
    (∃ u ∈ sampleTasks, isPending u = true) ∧
    ∃ t, selectPending sampleTasks = some t ∧ t ∈ sampleTasks ∧
      isPending t = true ∧
      (∀ u ∈ sampleTasks, isPending u = true →
        t.createdAt < u.createdAt ∨
          (t.createdAt = u.createdAt ∧ t.id ≤ u.id)) ∧
      (claimNext 5 sampleTasks).1 = some (markProcessing 5 t) :=
  ⟨by decide, fifo_claim_order 5 sampleTasks (by decide)⟩

/-- C6: every get_history reply carries the recent history, which holds
at most 20 tasks sorted by createdAt descending (newest first). -/
theorem history_bound_and_order (p : String) (now : Nat)
    (tasks : List Task) :
    (handleClientMessage ⟨"get_history", p⟩ now tasks).replies =
      [⟨"history", WSData.tasks (recentHistory tasks)⟩] ∧
    (recentHistory tasks).length ≤ 20 ∧
    List.Sorted (fun a b => b.createdAt ≤ a.createdAt)
      (recentHistory tasks) := by
  refine ⟨rfl, ?_, ?_⟩
  · unfold recentHistory
    exact List.length_take_le 20 _
  · unfold recentHistory
    exact List.Pairwise.sublist (List.take_sublist _ _)
      (List.sorted_insertionSort _ tasks)

/-- C8: an empty queue is not an error.  With no Pending row the claiming
transaction reports record-not-found, nothing is logged as a database
error and the worker sleeps the fixed 2-unit backoff; any other storage
error is logged and the loop keeps going. -/
theorem empty_queue_not_error (now : Nat) (tasks : List Task) :
    ((∀ u ∈ tasks, isPending u = false) →
      workerClaim none now ⟨tasks, WorkerState.idle⟩ =
        ⟨⟨tasks, WorkerState.idle⟩, [], false, some 2⟩) ∧
    ∀ m, workerClaim (some m) now ⟨tasks, WorkerState.idle⟩ =
      ⟨⟨tasks, WorkerState.idle⟩, [], true, some 2⟩ := by
  constructor
  · intro h
    have hf : tasks.filter isPending = [] :=
      List.filter_eq_nil_iff.mpr (fun u hu => by simp [h u hu])
    have hsel : selectPending tasks = none := by
      unfold selectPending; rw [hf]
    have he : claimNext now tasks = (none, tasks) := by
      unfold claimNext; rw [hsel]
    exact workerClaim_notFound rfl he
  · intro m
    exact workerClaim_fault rfl m now

/-- Witness for empty_queue_not_error on the empty table. -/
theorem empty_queue_not_error_witness :
    (∀ u ∈ ([] : List Task), isPending u = false) ∧
    workerClaim none 7 ⟨[], WorkerState.idle⟩ =
      ⟨⟨[], WorkerState.idle⟩, [], false, some 2⟩ :=
  ⟨by decide, (empty_queue_not_error 7 []).1 (by decide)⟩

/-- C2: monotonic status.  One operation applied to any reachable state
either leaves the status of a stored task unchanged or moves it along a legal
edge of Pending to Processing to Completed or Failed; in particular a
terminal status never changes again. -/
theorem status_monotonic (ops : List SysOp) (op : SysOp) (u u' : Task)
    (hu : u ∈ (runOps ops).tasks)
    (hu' : u' ∈ (applyOp op (runOps ops)).1.tasks)
    (hid : u.id = u'.id) :
    (u'.status = u.status ∨ legalEdge u.status u'.status) ∧
    (u.status = "Completed" → u'.status = "Completed") ∧
    (u.status = "Failed" → u'.status = "Failed") := by
  have hinv := inv_runOps ops
  set s := runOps ops with hs
  have main : u'.status = u.status ∨ legalEdge u.status u'.status := by
    rcases op with ⟨p, now⟩ | ⟨f, now⟩ | ⟨g, now⟩
    · have hu'2 : u' ∈ s.tasks ++
          [{ id := nextId s.tasks, prompt := p, status := "Pending",
             imagePath := "", createdAt := now, updatedAt := now }] := hu'
      rcases List.mem_append.mp hu'2 with hmem | hmem
      · left; rw [eq_of_mem_id hinv.nodup hu hmem hid]
      · exfalso
        simp only [List.mem_singleton] at hmem
        apply nextId_not_mem s.tasks
        have h2 : u.id = nextId s.tasks := by rw [hid, hmem]
        rw [← h2]
        exact List.mem_map_of_mem _ hu
    · rcases hw : s.worker with _ | t0
      · rcases f with _ | m
        · rcases e : claimNext now s.tasks with ⟨o, ts'⟩
          rcases o with _ | t'
          · have hst : (applyOp (SysOp.claim none now) s).1 = s := by
              show (workerClaim none now s).state = s
              rw [workerClaim_notFound hw e]
            rw [hst] at hu'
            left; rw [eq_of_mem_id hinv.nodup hu hu' hid]
          · have hst : (applyOp (SysOp.claim none now) s).1 =
                ⟨ts', WorkerState.busy t'⟩ := by
              show (workerClaim none now s).state = _
              rw [workerClaim_found hw e]
            rw [hst] at hu'
            obtain ⟨t, hsel, hmem, hp, ht', hts'⟩ := claimNext_some e
            rw [hts'] at hu'
            rcases mem_saveTask_cases hu' with h' | ⟨hm, _⟩
            · have hut : u = t := by
                apply eq_of_mem_id hinv.nodup hu hmem
                rw [hid, h', ht']
                rfl
              right
              exact Or.inl ⟨by rw [hut]; exact isPending_iff.mp hp,
                by rw [h', ht']; rfl⟩
            · left; rw [eq_of_mem_id hinv.nodup hu hm hid]
        · have hst : (applyOp (SysOp.claim (some m) now) s).1 = s := by
            show (workerClaim (some m) now s).state = s
            rw [workerClaim_fault hw m now]
          rw [hst] at hu'
          left; rw [eq_of_mem_id hinv.nodup hu hu' hid]
      · have hst : (applyOp (SysOp.claim f now) s).1 = s := by
          show (workerClaim f now s).state = s
          rw [workerClaim_busy hw f now]
        rw [hst] at hu'
        left; rw [eq_of_mem_id hinv.nodup hu hu' hid]
    · rcases hw : s.worker with _ | t
      · have hst : (applyOp (SysOp.finalize g now) s).1 = s := by
          show (workerFinalize g now s).1 = s
          unfold workerFinalize; rw [hw]
        rw [hst] at hu'
        left; rw [eq_of_mem_id hinv.nodup hu hu' hid]
      · have hst : (applyOp (SysOp.finalize g now) s).1 =
            ⟨saveTask s.tasks (finalTask g now t), WorkerState.idle⟩ := by
          show (workerFinalize g now s).1 = _
          unfold workerFinalize; rw [hw]
        rw [hst] at hu'
        obtain ⟨hproc, himg, u0, hu0, hid0, hst0⟩ := hinv.busy_proc t hw
        rcases mem_saveTask_cases hu' with h' | ⟨hm, _⟩
        · have hu_u0 : u = u0 := by
            apply eq_of_mem_id hinv.nodup hu hu0
            rw [hid, h', finalTask_id, hid0]
          right
          refine Or.inr ⟨by rw [hu_u0]; exact hst0, ?_⟩
          rw [h']
          rcases finalTask_status g now t with hf | hf
          · right; exact hf
          · left; exact hf
        · left; rw [eq_of_mem_id hinv.nodup hu hm hid]
  refine ⟨main, ?_, ?_⟩ <;> intro hterm <;> rcases main with h | h
  · rw [h, hterm]
  · exfalso
    rcases h with ⟨h1, _⟩ | ⟨h1, _⟩ <;> rw [hterm] at h1 <;>
      exact absurd h1 (by decide)
  · rw [h, hterm]
  · exfalso
    rcases h with ⟨h1, _⟩ | ⟨h1, _⟩ <;> rw [hterm] at h1 <;>
      exact absurd h1 (by decide)

/-- Witness for status_monotonic: claiming the single enqueued task moves
it from Pending to Processing. -/
theorem status_monotonic_witness :
    (⟨1, "cat", "Pending", "", 0, 0⟩ : Task) ∈
        (runOps [SysOp.enqueue "cat" 0]).tasks ∧
    ((⟨1, "cat", "Processing", "", 0, 1⟩ : Task).status =
        (⟨1, "cat", "Pending", "", 0, 0⟩ : Task).status ∨
      legalEdge (⟨1, "cat", "Pending", "", 0, 0⟩ : Task).status
        (⟨1, "cat", "Processing", "", 0, 1⟩ : Task).status) ∧
    ((⟨1, "cat", "Pending", "", 0, 0⟩ : Task).status = "Completed" →
      (⟨1, "cat", "Processing", "", 0, 1⟩ : Task).status = "Completed") ∧
    ((⟨1, "cat", "Pending", "", 0, 0⟩ : Task).status = "Failed" →
      (⟨1, "cat", "Processing", "", 0, 1⟩ : Task).status = "Failed") :=
  ⟨by decide, status_monotonic [SysOp.enqueue "cat" 0] (SysOp.claim none 1)
    ⟨1, "cat", "Pending", "", 0, 0⟩ ⟨1, "cat", "Processing", "", 0, 1⟩
    (by decide) (by decide) (by decide)⟩

/-- C4: broadcast total order.  The event being dispatched reaches every
connection registered (and writable) at dispatch time, appended after
everything that connection already received, and the log of every connection
is a subsequence of the one published sequence, so all connections
observe events in exactly publish order. -/
theorem broadcast_total_order (acts : List HubAct) (msg : WSResponse)
    (fail : Nat → Bool) :
    (∀ c ∈ (hubRun acts).conns, fail c.cid = false →
      (⟨c.cid, c.log ++ [msg]⟩ : Conn) ∈
        (hubStep (HubAct.publish msg fail) (hubRun acts)).conns) ∧
    ∀ c ∈ (hubStep (HubAct.publish msg fail) (hubRun acts)).conns,
      c.log.Sublist
        (hubStep (HubAct.publish msg fail) (hubRun acts)).published := by
  constructor
  · intro c hc hf
    exact mem_dispatchEvent hc hf msg
  · have h := hub_logs_sublist (acts ++ [HubAct.publish msg fail])
    have he : hubRun (acts ++ [HubAct.publish msg fail]) =
        hubStep (HubAct.publish msg fail) (hubRun acts) := by
      unfold hubRun
      rw [List.foldl_append]
      rfl
    rw [he] at h
    exact h

/-- Witness for broadcast_total_order: one registered connection with a
live socket receives the published update. -/
theorem broadcast_total_order_witness :
    ((fun _ : Nat => false) 0 = false) ∧
    (⟨0, [(⟨"update", WSData.task ⟨1, "cat", "Processing", "", 0, 1⟩⟩ :
        WSResponse)]⟩ : Conn) ∈
      (hubStep
        (HubAct.publish ⟨"update", WSData.task ⟨1, "cat", "Processing", "", 0, 1⟩⟩
          (fun _ => false))
        (hubRun [HubAct.register 0])).conns :=
  ⟨rfl,
    (broadcast_total_order [HubAct.register 0]
      ⟨"update", WSData.task ⟨1, "cat", "Processing", "", 0, 1⟩⟩
      (fun _ => false)).1 ⟨0, []⟩ (by decide) rfl⟩

/-- C5: collaborator failure handling.  When runPythonZImage reports an
error for the claimed task, the worker persists it with status Failed and
the image path still unset, broadcasts exactly one update event carrying
that record, and returns to the idle loop instead of crashing. -/
theorem collaborator_failure (ops : List SysOp) (t : Task) (m : String)
    (now : Nat) (hbusy : (runOps ops).worker = WorkerState.busy t) :
    ∃ u, u ∈ (applyOp (SysOp.finalize (Except.error m) now)
        (runOps ops)).1.tasks ∧
      u.id = t.id ∧ u.status = "Failed" ∧ u.imagePath = "" ∧
      (applyOp (SysOp.finalize (Except.error m) now) (runOps ops)).2 =
        [(⟨"update", WSData.task u⟩ : WSResponse)] ∧
      (applyOp (SysOp.finalize (Except.error m) now) (runOps ops)).1.worker =
        WorkerState.idle := by
  have hinv := inv_runOps ops
  obtain ⟨hproc, himg, u0, hu0, hid0, hst0⟩ := hinv.busy_proc t hbusy
  set s := runOps ops with hs
  have happ : applyOp (SysOp.finalize (Except.error m) now) s =
      (⟨saveTask s.tasks (finalTask (Except.error m) now t),
        WorkerState.idle⟩,
       [notifyUpdate (finalTask (Except.error m) now t)]) := by
    show workerFinalize (Except.error m) now s = _
    unfold workerFinalize; rw [hbusy]
  refine ⟨finalTask (Except.error m) now t, ?_, ?_, ?_, ?_, ?_, ?_⟩
  · rw [happ]
    exact self_mem_saveTask hu0 (by rw [finalTask_id]; exact hid0)
  · exact finalTask_id _ _ _
  · rfl
  · show t.imagePath = ""
    exact himg
  · rw [happ]
    rfl
  · rw [happ]

/-- Witness for collaborator_failure: enqueue one task, claim it, then
let the collaborator fail. -/
theorem collaborator_failure_witness :
    (runOps [SysOp.enqueue "cat" 0, SysOp.claim none 1]).worker =
        WorkerState.busy ⟨1, "cat", "Processing", "", 0, 1⟩ ∧
    ∃ u, u ∈ (applyOp (SysOp.finalize (Except.error "boom") 2)
        (runOps [SysOp.enqueue "cat" 0, SysOp.claim none 1])).1.tasks ∧
      u.id = (⟨1, "cat", "Processing", "", 0, 1⟩ : Task).id ∧
      u.status = "Failed" ∧ u.imagePath = "" ∧
      (applyOp (SysOp.finalize (Except.error "boom") 2)
        (runOps [SysOp.enqueue "cat" 0, SysOp.claim none 1])).2 =
        [(⟨"update", WSData.task u⟩ : WSResponse)] ∧
      (applyOp (SysOp.finalize (Except.error "boom") 2)
        (runOps [SysOp.enqueue "cat" 0, SysOp.claim none 1])).1.worker =
        WorkerState.idle :=
  ⟨by decide,
    collaborator_failure [SysOp.enqueue "cat" 0, SysOp.claim none 1]
      ⟨1, "cat", "Processing", "", 0, 1⟩ "boom" 2 (by decide)⟩

/-- C7: history privacy.  A get_history request puts nothing on the
broadcast channel (so the hub and every other connection are untouched)
and writes its history reply only to the requester, while a create_task
request replies to nobody and broadcasts the new task, which the
dispatcher then delivers to every live registered connection. -/
theorem history_privacy (p q : String) (now : Nat) (tasks : List Task)
    (conns : List Conn) (fail : Nat → Bool) :
    (handleClientMessage ⟨"get_history", p⟩ now tasks).broadcasts = [] ∧
    ((handleClientMessage ⟨"get_history", p⟩ now tasks).broadcasts.foldl
      (fun cs m => dispatchEvent fail m cs) conns = conns) ∧
    (handleClientMessage ⟨"get_history", p⟩ now tasks).replies =
      [⟨"history", WSData.tasks (recentHistory tasks)⟩] ∧
    (handleClientMessage ⟨"create_task", q⟩ now tasks).broadcasts =
      [⟨"new_task", WSData.task (enqueueTask q now tasks).1⟩] ∧
    (handleClientMessage ⟨"create_task", q⟩ now tasks).replies = [] ∧
    ∀ c ∈ conns, fail c.cid = false →
      (⟨c.cid, c.log ++
        [(⟨"new_task", WSData.task (enqueueTask q now tasks).1⟩ :
          WSResponse)]⟩ : Conn) ∈
        dispatchEvent fail
          ⟨"new_task", WSData.task (enqueueTask q now tasks).1⟩ conns := by
  refine ⟨rfl, rfl, rfl, rfl, rfl, ?_⟩
  intro c hc hf
  exact mem_dispatchEvent hc hf _

/-- Witness for history_privacy: the broadcast new_task of a create_task
request reaches the one registered live connection. -/
theorem history_privacy_witness :
    ((fun _ : Nat => false) 0 = false) ∧
    (⟨0, [(⟨"new_task", WSData.task (enqueueTask "dog" 3 sampleTasks).1⟩ :
        WSResponse)]⟩ : Conn) ∈
      dispatchEvent (fun _ => false)
        ⟨"new_task", WSData.task (enqueueTask "dog" 3 sampleTasks).1⟩
        [⟨0, []⟩] :=
  ⟨rfl,
    (history_privacy "x" "dog" 3 sampleTasks [⟨0, []⟩]
      (fun _ => false)).2.2.2.2.2 ⟨0, []⟩ (by decide) rfl⟩

/-- C9: an inbound message whose type is neither get_history nor
create_task changes nothing: the task table, the clients map and the
broadcast channel are untouched, no reply is written, and the read loop
simply continues. -/
theorem unknown_message_ignored (cid : Nat) (m : WSMessage) (rf : Bool)
    (now : Nat) (tasks : List Task) (conns : List Conn)
    (h1 : ¬ m.type = "get_history") (h2 : ¬ m.type = "create_task") :
    sessionStep cid (ReadEvent.received m rf) now tasks conns =
      ⟨tasks, conns, [], true⟩ := by
  have hm : handleClientMessage m now tasks = ⟨tasks, [], []⟩ := by
    unfold handleClientMessage
    rw [if_neg (by simpa using h1), if_neg (by simpa using h2)]
  show (⟨(handleClientMessage m now tasks).tasks,
    deliverReplies cid (handleClientMessage m now tasks).replies (!rf) conns,
    (handleClientMessage m now tasks).broadcasts, true⟩ : SessionStepResult) = _
  rw [hm]
  rw [deliverReplies_nil]

/-- Witness for unknown_message_ignored on a message of type bogus. -/
theorem unknown_message_ignored_witness :
    (¬ (⟨"bogus", ""⟩ : WSMessage).type = "get_history") ∧
    sessionStep 0 (ReadEvent.received ⟨"bogus", ""⟩ false) 0 sampleTasks
        [⟨0, []⟩] =
      ⟨sampleTasks, [⟨0, []⟩], [], true⟩ :=
  ⟨by decide,
    unknown_message_ignored 0 ⟨"bogus", ""⟩ false 0 sampleTasks [⟨0, []⟩]
      (by decide) (by decide)⟩

/-- C10: a failed private get_history reply is discarded: the connection
stays in the clients map and the loop keeps reading; a ReadJSON failure
removes the connection and breaks the loop; and the dispatcher keeps
exactly the connections whose broadcast write succeeds, deleting the
ones whose write fails. -/
theorem failed_reply_keeps_connection (cid : Nat) (p : String) (now : Nat)
    (tasks : List Task) (conns : List Conn) :
    (sessionStep cid (ReadEvent.received ⟨"get_history", p⟩ true) now tasks
        conns).conns = conns ∧
    (sessionStep cid (ReadEvent.received ⟨"get_history", p⟩ true) now tasks
        conns).continues = true ∧
    (sessionStep cid ReadEvent.readError now tasks conns).conns =
      conns.filter (fun c => !(c.cid == cid)) ∧
    (sessionStep cid ReadEvent.readError now tasks conns).continues =
      false ∧
    ∀ (fail : Nat → Bool) (msg : WSResponse) (c' : Conn),
      c' ∈ dispatchEvent fail msg conns ↔
        ∃ c ∈ conns, fail c.cid = false ∧ c' = ⟨c.cid, c.log ++ [msg]⟩ :=
  ⟨rfl, rfl, rfl, rfl, fun _ _ _ => mem_dispatchEvent_iff⟩

/-- Witness for failed_reply_keeps_connection: a failed history reply
leaves the single registered connection in place. -/
theorem failed_reply_keeps_connection_witness :
    (sessionStep 0 (ReadEvent.received ⟨"get_history", "x"⟩ true) 0
        sampleTasks [⟨0, []⟩]).conns = [⟨0, []⟩] :=
  (failed_reply_keeps_connection 0 "x" 0 sampleTasks [⟨0, []⟩]).1

end MCPZImage
